import Mathlib

/-!
Shallow embedding of the dev-context MCP server core (src/mcp/server.js):
the resource catalog (ListResources handler), the resource reader
(ReadResource handler), the pattern resolver (getPattern), the corpus
search (searchPatterns) and the markdown section extractor inlined in
getProjectTemplate.  Strings are modelled as Lean Strings; the JS string
operations used by the source (endsWith, startsWith, includes,
toLowerCase, split, join, replace-first-occurrence) are given explicit
executable definitions over the character data.
-/

/-- JS prefix test over generic element lists: pat is a prefix of s. -/
def hasPre {α : Type} [BEq α] : List α → List α → Bool
  | [], _ => true
  | _ :: _, [] => false
  | a :: as, b :: bs => a == b && hasPre as bs

/-- JS substring occurrence over char lists: pat occurs somewhere in s. -/
def hasSub (pat : List Char) : List Char → Bool
  | [] => hasPre pat ([] : List Char)
  | c :: rest => hasPre pat (c :: rest) || hasSub pat rest

/-- JS s.includes(pat). -/
def strIncludes (s pat : String) : Bool := hasSub pat.data s.data

/-- JS s.startsWith(pat). -/
def strStartsWith (s pat : String) : Bool := hasPre pat.data s.data

/-- JS s.endsWith(pat). -/
def strEndsWith (s pat : String) : Bool := hasPre pat.data.reverse s.data.reverse

/-- JS s.toLowerCase() (ASCII case folding, as used by the source). -/
def lowerStr (s : String) : String := ⟨s.data.map Char.toLower⟩

/-- Accumulator for splitting a char list at newline characters. -/
def splitLinesAux (cur : List Char) : List Char → List (List Char)
  | [] => [cur.reverse]
  | c :: cs => if c == '\n' then cur.reverse :: splitLinesAux [] cs else splitLinesAux (c :: cur) cs

/-- JS content.split(newline): the list of lines, empty pieces kept. -/
def splitLines (s : String) : List String := (splitLinesAux [] s.data).map (fun l => ⟨l⟩)

/-- JS lines.join(newline). -/
def joinLines : List String → String
  | [] => ""
  | [l] => l
  | l :: ls => l ++ "\n" ++ joinLines ls

/-- JS file.replace(/\.(md|json)$/, ""): strip a trailing .md or .json
extension, leave any other name unchanged (server.js lines 57, 199, 207,
233, 266). -/
def stripExt (f : String) : String :=
  if strEndsWith f ".md" then ⟨f.data.take (f.data.length - 3)⟩
  else if strEndsWith f ".json" then ⟨f.data.take (f.data.length - 5)⟩
  else f

/-- The recognized-extension test used by the handlers (server.js lines
53, 232, 259): file.endsWith(".md") or file.endsWith(".json"). -/
def isRecognized (f : String) : Bool := strEndsWith f ".md" || strEndsWith f ".json"

/-- JS replace of the first occurrence of a character (stack.replace(dash,
space) replaces only the first dash). -/
def replaceFirstChar (c r : Char) : List Char → List Char
  | [] => []
  | a :: as => if a == c then r :: as else a :: replaceFirstChar c r as

/-- JS stack.replace(dash, space) as used at server.js lines 318 and 333:
only the first hyphen is replaced by a space. -/
def jsReplaceHyphen (s : String) : String := ⟨replaceFirstChar '-' ' ' s.data⟩

/-- JS findIndex, returning none instead of -1. -/
def findIdxOpt {α : Type} (p : α → Bool) : List α → Option Nat
  | [] => none
  | a :: l => if p a then some 0 else (findIdxOpt p l).map (· + 1)

/-- Remove the first occurrence of pat from a char list (JS
s.replace(pat, "") with a string pattern replaces only the first
occurrence). -/
def removeFirstOcc (pat : List Char) : List Char → List Char
  | [] => []
  | c :: rest =>
    if hasPre pat (c :: rest) then (c :: rest).drop pat.length
    else c :: removeFirstOcc pat rest

/-- JS uri.replace("devcontext://", "") (server.js line 79). -/
def removeFirstOccStr (s pat : String) : String := ⟨removeFirstOcc pat.data s.data⟩

/-- One stored file: filename (with extension) and raw text content. -/
structure FileEntry where
  name : String
  content : String
deriving DecidableEq

/-- A top-level entry of the contexts directory as the handlers see it:
a directory whose readdir succeeds, a directory whose readdir fails with
an I/O error, or a non-directory entry (skipped by the stat check). -/
inductive CatEntry where
  | dir (files : List FileEntry)
  | dirFail
  | notDir
deriving DecidableEq

/-- The document store: the top-level directory listing, in enumeration
order, pairing each entry name with its contents. -/
abbrev Store := List (String × CatEntry)

/-- fs.readdir(path.join(contextsPath, category)): directory-name lookup
in the store.  Filesystem names are unique, first hit wins. -/
def lookupCat : Store → String → Option CatEntry
  | [], _ => none
  | (n, e) :: rest, c => if n == c then some e else lookupCat rest c

/-- A Resource as pushed by the ListResources handler (server.js lines
54-59). -/
structure Resource where
  uri : String
  name : String
  description : String
  mimeType : String
deriving DecidableEq

/-- The Resource built for one recognized file of a category (server.js
lines 54-59). -/
def resourceOfFile (category : String) (f : FileEntry) : Resource :=
  { uri := "devcontext://" ++ category ++ "/" ++ f.name
    name := category ++ "/" ++ f.name
    description := "Context pattern for " ++ category ++ " - " ++ stripExt f.name
    mimeType := if strEndsWith f.name ".md" then "text/markdown" else "application/json" }

/-- The inner loop of the ListResources handler over one category's
files: push a Resource for each file with a recognized extension
(server.js lines 52-61). -/
def resourcesOfFiles (category : String) (files : List FileEntry) : List Resource :=
  files.filterMap (fun f => if isRecognized f.name then some (resourceOfFile category f) else none)

/-- The ListResources handler (server.js lines 39-69).  The whole
category loop sits inside one try block and resources are accumulated by
push, so when readdir of some category throws, the catch returns exactly
the resources pushed before the failure; non-directory entries are
skipped by the stat check. -/
def listResources : Store → List Resource
  | [] => []
  | (name, CatEntry.dir files) :: rest => resourcesOfFiles name files ++ listResources rest
  | (_, CatEntry.notDir) :: rest => listResources rest
  | (_, CatEntry.dirFail) :: _ => []

/-- Outcome of getPattern's normal return path: the matched file's
content, or the not-found message carrying the available names
(server.js lines 203-220). -/
inductive PatternResult where
  | found (content : String)
  | notFound (available : List String)
deriving DecidableEq

/-- files.find(file => file.replace(ext, "") === pattern ||
file.includes(pattern)) (server.js lines 198-201): one pass, first file
satisfying either disjunct wins. -/
def findMatchingFile (pattern : String) : List FileEntry → Option FileEntry
  | [] => none
  | f :: fs =>
    if stripExt f.name == pattern || strIncludes f.name pattern then some f
    else findMatchingFile pattern fs

/-- getPattern (server.js lines 192-224).  readdir of a missing,
failing or non-directory category throws and the catch rethrows, so
those cases are an error; otherwise the first matching file's content is
returned, or the not-found message with every file's stripped name. -/
def getPattern (cats : Store) (category pattern : String) : Except String PatternResult :=
  match lookupCat cats category with
  | some (CatEntry.dir files) =>
    match findMatchingFile pattern files with
    | some f => Except.ok (PatternResult.found f.content)
    | none => Except.ok (PatternResult.notFound (files.map (fun f => stripExt f.name)))
  | _ => Except.error ("Failed to get pattern: cannot read category " ++ category)

/-- One search result as pushed by searchPatterns (server.js lines
264-268). -/
structure SearchHit where
  category : String
  pattern : String
  file : String
deriving DecidableEq

/-- The inner loop of searchPatterns over one category: for every
recognized file whose lowercased content includes the lowercased query,
push a hit (server.js lines 258-271). -/
def searchFiles (query category : String) (files : List FileEntry) : List SearchHit :=
  files.filterMap (fun f =>
    if isRecognized f.name then
      if strIncludes (lowerStr f.content) (lowerStr query) then
        some ⟨category, stripExt f.name, f.name⟩
      else none
    else none)

/-- searchPatterns (server.js lines 246-297).  All categories sit inside
one try whose catch rethrows, so a failing readdir makes the whole call
an error; non-directory entries are skipped; hits follow nested
enumeration order. -/
def searchPatterns (query : String) : Store → Except String (List SearchHit)
  | [] => Except.ok []
  | (name, CatEntry.dir files) :: rest =>
    match searchPatterns query rest with
    | Except.ok hits => Except.ok (searchFiles query name files ++ hits)
    | Except.error e => Except.error e
  | (_, CatEntry.notDir) :: rest => searchPatterns query rest
  | (_, CatEntry.dirFail) :: _ => Except.error "Failed to search patterns: readdir failed"

/-- The line-match test of the section extractor (server.js lines 317-319
and 333): line.toLowerCase().includes(stack.replace(dash, space)).  Only
the hyphen-to-space variant of the key is tested. -/
def lineMatches (stack line : String) : Bool :=
  strIncludes (lowerStr line) (jsReplaceHyphen stack)

/-- The section-boundary test of server.js line 333: the line starts
with a second-level heading marker and does not match the key. -/
def isBoundary (stack line : String) : Bool :=
  strStartsWith line "## " && ! lineMatches stack line

/-- The section extraction inlined in getProjectTemplate (server.js
lines 316-345): split into lines, findIndex of the first matching line
(if none, return the whole content), scan from the next line for the
first boundary line (if none, the end of the document), and join the
slice from the match to the boundary. -/
def extractSection (content stack : String) : String :=
  let lines := splitLines content
  match findIdxOpt (lineMatches stack) lines with
  | none => content
  | some start =>
    let endIdx :=
      match findIdxOpt (isBoundary stack) (lines.drop (start + 1)) with
      | none => lines.length
      | some j => start + 1 + j
    joinLines ((lines.drop start).take (endIdx - start))

/-- One path.join segment step: empty and dot segments are dropped,
dot-dot pops the last segment, anything else is appended. -/
def applySeg (acc : List String) (seg : String) : List String :=
  if seg == "" || seg == "." then acc
  else if seg == ".." then acc.dropLast
  else acc ++ [seg]

/-- Split a string at a separator character (JS split). -/
def splitOnChar (sep : Char) (s : String) : List String :=
  ((splitAux [] s.data).map (fun l => ⟨l⟩) : List String)
where
  splitAux (cur : List Char) : List Char → List (List Char)
    | [] => [cur.reverse]
    | c :: cs => if c == sep then cur.reverse :: splitAux [] cs else splitAux (c :: cur) cs

/-- path.join(contextsPath, resourcePath) (server.js line 80), modelled
on path segments: the relative part's slash-separated segments are
normalized onto the root, with dot-dot climbing above the root when the
relative part asks for it. -/
def joinPath (root : List String) (rel : String) : List String :=
  (splitOnChar '/' rel).foldl applySeg root

/-- A flat filesystem for the ReadResource handler: full segment paths
mapped to file contents. -/
def lookupPath : List (List String × String) → List String → Option String
  | [], _ => none
  | (p, c) :: rest, q => if p == q then some c else lookupPath rest q

/-- The ReadResource handler (server.js lines 72-96): the only input
validation is the literal scheme-prefix check; the remainder of the URI
(first occurrence of the prefix removed) is joined onto the store root
and read, a missing file turning into the caught-and-rethrown error. -/
def readResource (root : List String) (fsys : List (List String × String)) (uri : String) :
    Except String String :=
  if strStartsWith uri "devcontext://" then
    let fullPath := joinPath root (removeFirstOccStr uri "devcontext://")
    match lookupPath fsys fullPath with
    | some content => Except.ok content
    | none => Except.error "Failed to read resource"
  else Except.error ("Invalid URI: " ++ uri)

deriving instance DecidableEq for Except

/-- Concrete store for C1: an earlier file whose name contains the
pattern as a substring, then a file whose stripped name is the pattern. -/
def c1Store : Store := [("c", CatEntry.dir [⟨"abc.md", "X"⟩, ⟨"b.md", "Y"⟩])]

/-- Concrete store for the C1 witness: the exact-name file is preceded
only by a file that matches neither exactly nor as a substring. -/
def c1WStore : Store := [("arch", CatEntry.dir [⟨"zzz.md", "Z"⟩, ⟨"frontend.md", "F"⟩])]

/-- Concrete store for C2: the first category fails to enumerate, the
second enumerates fine. -/
def c2FailStore : Store := [("a", CatEntry.dirFail), ("b", CatEntry.dir [⟨"b.md", "y"⟩])]

/-- Concrete document for C3: the heading holds the literal hyphenated
key, never the hyphen-to-space variant. -/
def c3Doc : String := "## vite-react\nA\n## setup\nB"

/-- Concrete store for the C4 witness. -/
def c4Store : Store :=
  [("components", CatEntry.dir [⟨"ui-patterns.md", "uses Tailwind here"⟩]),
   ("api", CatEntry.dir [⟨"server.json", "nothing relevant"⟩])]

/-- Concrete document for the C5 witness: two second-level sections. -/
def c5Doc : String := "## Alpha\na1\na2\n## Beta\nb1"

/-- Concrete store for the C7 witness. -/
def c7Store : Store := [("api", CatEntry.dir [⟨"server-patterns.md", "S"⟩])]

/-- Concrete store for the C8 witness, the spec scenario. -/
def c8Store : Store :=
  [("architecture", CatEntry.dir [⟨"frontend.md", "F"⟩, ⟨"backend.md", "B"⟩])]

/-- Concrete store root for C9 (segments of the contexts directory). -/
def c9Root : List String := ["srv", "app", "src", "contexts"]

/-- Concrete filesystem for C9: one file outside the contexts root. -/
def c9Fsys : List (List String × String) :=
  [(["srv", "app", "src", "mcp", "server.js"], "const SECRET = 1;")]

/-- Concrete store for C10: one category holding only a file with an
unrecognized extension. -/
def c10Store : Store := [("notes", CatEntry.dir [⟨"readme.txt", "RAW"⟩])]

theorem findIdxOpt_lt_length {α : Type} (p : α → Bool) (l : List α) (i : Nat)
    (h : findIdxOpt p l = some i) : i < l.length := by
  induction l generalizing i with
  | nil => simp [findIdxOpt] at h
  | cons a t ih =>
    simp only [findIdxOpt] at h
    by_cases hp : p a
    · rw [if_pos hp] at h
      cases h
      simp
    · rw [if_neg hp] at h
      cases ho : findIdxOpt p t with
      | none => rw [ho] at h; simp at h
      | some j =>
        rw [ho] at h
        simp only [Option.map_some'] at h
        cases h
        have := ih j ho
        simp only [List.length_cons]
        omega

theorem findIdxOpt_getD {α : Type} (p : α → Bool) (l : List α) (i : Nat) (d : α)
    (h : findIdxOpt p l = some i) : p (l.getD i d) = true := by
  induction l generalizing i with
  | nil => simp [findIdxOpt] at h
  | cons a t ih =>
    simp only [findIdxOpt] at h
    by_cases hp : p a
    · rw [if_pos hp] at h
      cases h
      simpa [List.getD_cons_zero] using hp
    · rw [if_neg hp] at h
      cases ho : findIdxOpt p t with
      | none => rw [ho] at h; simp at h
      | some j =>
        rw [ho] at h
        simp only [Option.map_some'] at h
        cases h
        simpa [List.getD_cons_succ] using ih j ho

theorem findIdxOpt_before {α : Type} (p : α → Bool) (l : List α) (i : Nat) (d : α)
    (h : findIdxOpt p l = some i) : ∀ j, j < i → p (l.getD j d) = false := by
  induction l generalizing i with
  | nil => simp [findIdxOpt] at h
  | cons a t ih =>
    simp only [findIdxOpt] at h
    by_cases hp : p a
    · rw [if_pos hp] at h
      cases h
      intro j hj
      omega
    · rw [if_neg hp] at h
      cases ho : findIdxOpt p t with
      | none => rw [ho] at h; simp at h
      | some j' =>
        rw [ho] at h
        simp only [Option.map_some'] at h
        cases h
        intro j hj
        cases j with
        | zero => simpa [List.getD_cons_zero] using Bool.eq_false_iff.mpr hp
        | succ j => simpa [List.getD_cons_succ] using ih j' ho j (by omega)

theorem findIdxOpt_of_first {α : Type} (p : α → Bool) (l : List α) (i : Nat) (d : α)
    (hi : i < l.length) (hp : p (l.getD i d) = true)
    (hbefore : ∀ j, j < i → p (l.getD j d) = false) :
    findIdxOpt p l = some i := by
  induction l generalizing i with
  | nil => simp at hi
  | cons a t ih =>
    cases i with
    | zero =>
      simp only [List.getD_cons_zero] at hp
      simp [findIdxOpt, hp]
    | succ i =>
      have ha : p a = false := by
        simpa [List.getD_cons_zero] using hbefore 0 (Nat.succ_pos i)
      have ht : findIdxOpt p t = some i := by
        refine ih i (by simpa using hi) (by simpa [List.getD_cons_succ] using hp) ?_
        intro j hj
        simpa [List.getD_cons_succ] using hbefore (j + 1) (by omega)
      simp [findIdxOpt, ha, ht]

theorem findIdxOpt_none_iff {α : Type} (p : α → Bool) (l : List α) :
    findIdxOpt p l = none ↔ ∀ x ∈ l, p x = false := by
  induction l with
  | nil => simp [findIdxOpt]
  | cons a t ih =>
    simp only [findIdxOpt]
    by_cases hp : p a
    · rw [if_pos hp]
      constructor
      · intro h; simp at h
      · intro h
        have := h a (by simp)
        rw [hp] at this
        cases this
    · rw [if_neg hp]
      constructor
      · intro h x hx
        rcases List.mem_cons.mp hx with rfl | hx'
        · exact Bool.eq_false_iff.mpr hp
        · exact (ih.mp (by simpa using h)) x hx'
      · intro h
        have : findIdxOpt p t = none := ih.mpr (fun x hx => h x (by simp [hx]))
        simp [this]

theorem take_findIdxOpt_some {α : Type} (p : α → Bool) (l : List α) (j : Nat)
    (h : findIdxOpt p l = some j) : l.take j = l.takeWhile (fun x => ! p x) := by
  induction l generalizing j with
  | nil => simp [findIdxOpt] at h
  | cons a t ih =>
    simp only [findIdxOpt] at h
    by_cases hp : p a
    · rw [if_pos hp] at h
      cases h
      simp [List.takeWhile, hp]
    · rw [if_neg hp] at h
      cases ho : findIdxOpt p t with
      | none => rw [ho] at h; simp at h
      | some j' =>
        rw [ho] at h
        simp only [Option.map_some'] at h
        cases h
        simp [List.takeWhile, hp, List.take_succ_cons, ih j' ho]

theorem takeWhile_of_all_neg {α : Type} (p : α → Bool) (l : List α)
    (h : ∀ x ∈ l, p x = false) : l.takeWhile (fun x => ! p x) = l := by
  induction l with
  | nil => rfl
  | cons a t ih =>
    have ha : p a = false := h a (by simp)
    simp only [List.takeWhile, ha]
    simp [ih (fun x hx => h x (by simp [hx]))]

theorem drop_eq_getD_cons {α : Type} (l : List α) (n : Nat) (d : α) (h : n < l.length) :
    l.drop n = l.getD n d :: l.drop (n + 1) := by
  induction l generalizing n with
  | nil => simp at h
  | cons a t ih =>
    cases n with
    | zero => simp [List.getD]
    | succ n =>
      simp only [List.drop, List.getD, List.get?]
      simpa using ih n (by simpa using h)

/-- C1 (counterexample): the store's category "c" holds the item
b.md with content "Y", whose filename-without-extension is "b"; yet
getPattern on ("c", "b") returns "X", the content of the earlier file
abc.md, because the single find pass accepts the earlier substring match
before ever reaching the exact-name item.  The claimed exact-over-
substring priority therefore fails. -/
theorem c1_counterexample :
    lookupCat c1Store "c" = some (CatEntry.dir [⟨"abc.md", "X"⟩, ⟨"b.md", "Y"⟩]) ∧
    stripExt "b.md" = "b" ∧
    stripExt "abc.md" ≠ "b" ∧
    strIncludes "abc.md" "b" = true ∧
    getPattern c1Store "c" "b" = Except.ok (PatternResult.found "X") ∧
    getPattern c1Store "c" "b" ≠ Except.ok (PatternResult.found "Y") :=
  ⟨rfl, rfl, by decide, rfl, rfl, by decide⟩

theorem findMatchingFile_append (pattern : String) (pre post : List FileEntry)
    (f : FileEntry) (hexact : stripExt f.name = pattern)
    (hpre : ∀ g ∈ pre, stripExt g.name ≠ pattern ∧ strIncludes g.name pattern = false) :
    findMatchingFile pattern (pre ++ f :: post) = some f := by
  induction pre with
  | nil =>
    simp only [List.nil_append, findMatchingFile]
    rw [if_pos]
    simp [hexact]
  | cons g gs ih =>
    have hg := hpre g (by simp)
    simp only [List.cons_append, findMatchingFile]
    rw [if_neg]
    · exact ih (fun g' hg' => hpre g' (by simp [hg']))
    · simp [hg.1, hg.2]

/-- C1 (amended): getPattern resolves with one first-match-wins pass
over the category's files, accepting a file when its stripped name
equals the pattern or its filename contains the pattern; hence an item
whose stripped name is exactly the pattern is returned precisely when no
earlier file in enumeration order matches exactly or as a substring. -/
theorem c1_amended_first_match (cats : Store) (category pattern : String)
    (pre post : List FileEntry) (f : FileEntry)
    (hcat : lookupCat cats category = some (CatEntry.dir (pre ++ f :: post)))
    (hexact : stripExt f.name = pattern)
    (hpre : ∀ g ∈ pre, stripExt g.name ≠ pattern ∧ strIncludes g.name pattern = false) :
    getPattern cats category pattern = Except.ok (PatternResult.found f.content) := by
  simp only [getPattern, hcat, findMatchingFile_append pattern pre post f hexact hpre]

/-- C1 (witness for the amended theorem at a concrete store). -/
theorem c1_amended_witness :
    lookupCat c1WStore "arch" =
      some (CatEntry.dir ([⟨"zzz.md", "Z"⟩] ++ ⟨"frontend.md", "F"⟩ :: [])) ∧
    stripExt "frontend.md" = "frontend" ∧
    (∀ g ∈ [(⟨"zzz.md", "Z"⟩ : FileEntry)],
      stripExt g.name ≠ "frontend" ∧ strIncludes g.name "frontend" = false) ∧
    getPattern c1WStore "arch" "frontend" = Except.ok (PatternResult.found "F") :=
  ⟨rfl, rfl, by decide,
   c1_amended_first_match c1WStore "arch" "frontend" [⟨"zzz.md", "Z"⟩] []
     ⟨"frontend.md", "F"⟩ rfl rfl (by decide)⟩

/-- C2 (counterexample): category "b" on its own yields one resource,
but with the failing category "a" enumerated before it, listResources
returns the empty list — the categories after the failure are not
enumerated, contradicting the claim that enumeration continues with the
remaining categories regardless of the failing category's position. -/
theorem c2_counterexample :
    listResources [("b", CatEntry.dir [⟨"b.md", "y"⟩])] =
      [resourceOfFile "b" ⟨"b.md", "y"⟩] ∧
    listResources c2FailStore = [] :=
  ⟨rfl, rfl⟩

/-- C2 (amended): when one category fails to enumerate, listResources
never fails outright but stops there: it returns exactly the resources
collected from the categories enumerated before the failing one, and
nothing from the categories after it. -/
theorem c2_amended_stops_at_failure (pre post : Store) (name : String)
    (hpre : ∀ c ∈ pre, c.2 ≠ CatEntry.dirFail) :
    listResources (pre ++ (name, CatEntry.dirFail) :: post) = listResources pre := by
  induction pre with
  | nil => rfl
  | cons c cs ih =>
    obtain ⟨n, e⟩ := c
    have hrest : ∀ c' ∈ cs, c'.2 ≠ CatEntry.dirFail := fun c' hc' => hpre c' (by simp [hc'])
    cases e with
    | dir files =>
      simp only [List.cons_append, listResources]
      exact congrArg (resourcesOfFiles n files ++ ·) (ih hrest)
    | notDir =>
      simp only [List.cons_append, listResources]
      exact ih hrest
    | dirFail => exact absurd rfl (hpre (n, CatEntry.dirFail) (by simp))

/-- C2 (witness for the amended theorem at a concrete store). -/
theorem c2_amended_witness :
    (∀ c ∈ [("b", CatEntry.dir [(⟨"b.md", "y"⟩ : FileEntry)])], c.2 ≠ CatEntry.dirFail) ∧
    listResources ([("b", CatEntry.dir [⟨"b.md", "y"⟩])] ++
        ("a", CatEntry.dirFail) :: [("c", CatEntry.dir [⟨"c.md", "z"⟩])]) =
      listResources [("b", CatEntry.dir [⟨"b.md", "y"⟩])] :=
  ⟨by decide,
   c2_amended_stops_at_failure [("b", CatEntry.dir [⟨"b.md", "y"⟩])]
     [("c", CatEntry.dir [⟨"c.md", "z"⟩])] "a" (by decide)⟩

/-- C3 (counterexample): in c3Doc the first line's lowercase text
contains the literal topicKey "vite-react", so under the claim the
section start would be located there and the extraction would return
the first two lines; but the code tests only the hyphen-to-space
variant "vite react", matches no line, and returns the whole document
unchanged. -/
theorem c3_counterexample :
    strIncludes (lowerStr "## vite-react") "vite-react" = true ∧
    jsReplaceHyphen "vite-react" = "vite react" ∧
    lineMatches "vite-react" "## vite-react" = false ∧
    extractSection c3Doc "vite-react" = c3Doc ∧
    extractSection c3Doc "vite-react" ≠ "## vite-react\nA" :=
  ⟨rfl, rfl, rfl, rfl, by decide⟩

/-- C3 (amended): extractSection locates the start of the section by
finding the first line whose lowercase text contains the topicKey with
its first '-' replaced by a single space; only that variant is tried,
and the returned text is a nonempty initial span of the lines starting
at that first matching line. -/
theorem c3_amended_variant_only (content stack : String) (i : Nat)
    (hi : i < (splitLines content).length)
    (hmatch : lineMatches stack ((splitLines content).getD i "") = true)
    (hbefore : ∀ j, j < i → lineMatches stack ((splitLines content).getD j "") = false) :
    ∃ k, extractSection content stack =
      joinLines (((splitLines content).drop i).take (k + 1)) := by
  have hfind : findIdxOpt (lineMatches stack) (splitLines content) = some i :=
    findIdxOpt_of_first _ _ i "" hi hmatch hbefore
  unfold extractSection
  simp only [hfind]
  cases hb : findIdxOpt (isBoundary stack) ((splitLines content).drop (i + 1)) with
  | none =>
    refine ⟨(splitLines content).length - i - 1, ?_⟩
    rw [Nat.sub_add_cancel (by omega : 1 ≤ (splitLines content).length - i)]
  | some j =>
    refine ⟨j, ?_⟩
    rw [show i + 1 + j - i = j + 1 from by omega]

/-- C3 (witness for the amended theorem at a concrete document). -/
theorem c3_amended_witness :
    0 < (splitLines "## vite react\nA").length ∧
    lineMatches "vite-react" ((splitLines "## vite react\nA").getD 0 "") = true ∧
    (∃ k, extractSection "## vite react\nA" "vite-react" =
      joinLines (((splitLines "## vite react\nA").drop 0).take (k + 1))) :=
  ⟨by decide, rfl,
   c3_amended_variant_only "## vite react\nA" "vite-react" 0 (by decide) rfl
     (fun j hj => absurd hj (Nat.not_lt_zero j))⟩

/-- C6: when no line of the content matches the topicKey (under the
code's line-match test), extractSection returns the entire original
content unchanged, as a normal return rather than an error. -/
theorem c6_no_match_round_trip (content stack : String)
    (h : ∀ l ∈ splitLines content, lineMatches stack l = false) :
    extractSection content stack = content := by
  have hnone : findIdxOpt (lineMatches stack) (splitLines content) = none :=
    (findIdxOpt_none_iff _ _).mpr h
  unfold extractSection
  simp only [hnone]

/-- C6 (witness at a concrete document and key). -/
theorem c6_witness :
    (∀ l ∈ splitLines "hello\nworld", lineMatches "zzz" l = false) ∧
    extractSection "hello\nworld" "zzz" = "hello\nworld" :=
  ⟨by decide, c6_no_match_round_trip "hello\nworld" "zzz" (by decide)⟩

theorem findMatchingFile_none (pattern : String) (files : List FileEntry)
    (hno : ∀ f ∈ files, stripExt f.name ≠ pattern ∧ strIncludes f.name pattern = false) :
    findMatchingFile pattern files = none := by
  induction files with
  | nil => rfl
  | cons f fs ih =>
    have hf := hno f (by simp)
    simp only [findMatchingFile]
    rw [if_neg]
    · exact ih (fun g hg => hno g (by simp [hg]))
    · simp [hf.1, hf.2]

/-- C8: when the category exists and enumerates but no file matches the
pattern exactly or as a substring, getPattern returns the not-found
outcome carrying every file's stripped name; when the category does not
exist in the store, getPattern fails with an error instead. -/
theorem c8_not_found_diagnostics (cats : Store) (category pattern : String) :
    (∀ files, lookupCat cats category = some (CatEntry.dir files) →
      (∀ f ∈ files, stripExt f.name ≠ pattern ∧ strIncludes f.name pattern = false) →
      getPattern cats category pattern =
        Except.ok (PatternResult.notFound (files.map (fun f => stripExt f.name)))) ∧
    (lookupCat cats category = none →
      ∃ msg, getPattern cats category pattern = Except.error msg) := by
  constructor
  · intro files hcat hno
    simp only [getPattern, hcat, findMatchingFile_none pattern files hno]
  · intro hnone
    refine ⟨"Failed to get pattern: cannot read category " ++ category, ?_⟩
    simp only [getPattern, hnone]

/-- C8 (witness: the spec scenario, plus a missing category). -/
theorem c8_witness :
    getPattern c8Store "architecture" "zzz" =
      Except.ok (PatternResult.notFound ["frontend", "backend"]) ∧
    (∃ msg, getPattern c8Store "missing" "zzz" = Except.error msg) :=
  ⟨(c8_not_found_diagnostics c8Store "architecture" "zzz").1
     [⟨"frontend.md", "F"⟩, ⟨"backend.md", "B"⟩] rfl (by decide),
   (c8_not_found_diagnostics c8Store "missing" "zzz").2 rfl⟩

/-- C9: the ReadResource handler validates only the literal scheme
prefix; the URI devcontext://../mcp/server.js passes that check, its
remainder's '..' segment resolves the joined path to a file outside the
contexts root (the root's segments are not a prefix of the resolved
path), and the handler reads and returns that outside file's content. -/
theorem c9_path_traversal :
    strStartsWith "devcontext://../mcp/server.js" "devcontext://" = true ∧
    joinPath c9Root (removeFirstOccStr "devcontext://../mcp/server.js" "devcontext://") =
      ["srv", "app", "src", "mcp", "server.js"] ∧
    hasPre c9Root ["srv", "app", "src", "mcp", "server.js"] = false ∧
    readResource c9Root c9Fsys "devcontext://../mcp/server.js" =
      Except.ok "const SECRET = 1;" :=
  ⟨rfl, rfl, by decide, rfl⟩

/-- C10: getPattern's candidate set is every directory entry: in a
category whose only file readme.txt has an unrecognized extension,
the pattern "readme" matches it as a substring and its raw content is
returned, and the available-names list of a not-found outcome includes
the name derived from that unrecognized-extension file. -/
theorem c10_unrecognized_candidates :
    isRecognized "readme.txt" = false ∧
    getPattern c10Store "notes" "readme" = Except.ok (PatternResult.found "RAW") ∧
    getPattern c10Store "notes" "zzz" = Except.ok (PatternResult.notFound ["readme.txt"]) :=
  ⟨rfl, rfl, rfl⟩

/-- C4: when every category enumerates successfully, searchPatterns
returns a normal (non-error) list of hits that contains a hit
(category, filename-without-extension, filename) for every
recognized-extension file whose lowercased content contains the
lowercased query — no false negatives — and that is empty when no stored
document contains the query. -/
theorem c4_search_no_false_negatives (cats : Store) (query : String)
    (hok : ∀ c ∈ cats, c.2 ≠ CatEntry.dirFail) :
    ∃ hits, searchPatterns query cats = Except.ok hits ∧
      (∀ name files f, (name, CatEntry.dir files) ∈ cats → f ∈ files →
        isRecognized f.name = true →
        strIncludes (lowerStr f.content) (lowerStr query) = true →
        (⟨name, stripExt f.name, f.name⟩ : SearchHit) ∈ hits) ∧
      ((∀ name files f, (name, CatEntry.dir files) ∈ cats → f ∈ files →
        strIncludes (lowerStr f.content) (lowerStr query) = false) →
        hits = []) := by
  induction cats with
  | nil => exact ⟨[], rfl, by simp, fun _ => rfl⟩
  | cons c rest ih =>
    obtain ⟨n, e⟩ := c
    have hok' : ∀ c ∈ rest, c.2 ≠ CatEntry.dirFail := fun c hc => hok c (by simp [hc])
    obtain ⟨hits, hh, hcomp, hempty⟩ := ih hok'
    cases e with
    | dirFail => exact absurd rfl (hok (n, CatEntry.dirFail) (by simp))
    | notDir =>
      refine ⟨hits, ?_, ?_, ?_⟩
      · simp only [searchPatterns]
        exact hh
      · intro name files f hmem hf hrec hq
        rcases List.mem_cons.mp hmem with heq | hmem'
        · cases heq
        · exact hcomp name files f hmem' hf hrec hq
      · intro hnone
        exact hempty (fun name files f hm hf => hnone name files f (by simp [hm]) hf)
    | dir files =>
      refine ⟨searchFiles query n files ++ hits, ?_, ?_, ?_⟩
      · simp only [searchPatterns, hh]
      · intro name files' f hmem hf hrec hq
        rcases List.mem_cons.mp hmem with heq | hmem'
        · injection heq with h1 h2
          injection h2 with h3
          subst h1
          subst h3
          refine List.mem_append_left _ (List.mem_filterMap.mpr ⟨f, hf, ?_⟩)
          simp [hrec, hq]
        · exact List.mem_append_right _ (hcomp name files' f hmem' hf hrec hq)
      · intro hnone
        have h1 : searchFiles query n files = [] := by
          refine List.filterMap_eq_nil_iff.mpr ?_
          intro f hf
          by_cases hr : isRecognized f.name
          · simp [hr, hnone n files f (by simp) hf]
          · simp [hr]
        have h2 : hits = [] :=
          hempty (fun name files' f hm hf => hnone name files' f (by simp [hm]) hf)
        rw [h1, h2]
        rfl

/-- C4 (witness at a concrete store and query). -/
theorem c4_witness :
    (∀ c ∈ c4Store, c.2 ≠ CatEntry.dirFail) ∧
    (∃ hits, searchPatterns "tailwind" c4Store = Except.ok hits ∧
      (∀ name files f, (name, CatEntry.dir files) ∈ c4Store → f ∈ files →
        isRecognized f.name = true →
        strIncludes (lowerStr f.content) (lowerStr "tailwind") = true →
        (⟨name, stripExt f.name, f.name⟩ : SearchHit) ∈ hits) ∧
      ((∀ name files f, (name, CatEntry.dir files) ∈ c4Store → f ∈ files →
        strIncludes (lowerStr f.content) (lowerStr "tailwind") = false) →
        hits = [])) :=
  ⟨by decide, c4_search_no_false_negatives c4Store "tailwind" (by decide)⟩

/-- C5: when some line matches the topicKey, extractSection returns
exactly the matched line followed by the subsequent lines up to (and
excluding) the first line that starts with the second-level heading
marker and does not itself match the topicKey; when no such boundary
line exists, the span runs to the end of the document (takeWhile keeps
everything). -/
theorem c5_section_boundary (content stack : String) (start : Nat)
    (h : findIdxOpt (lineMatches stack) (splitLines content) = some start) :
    extractSection content stack =
      joinLines ((splitLines content).getD start "" ::
        ((splitLines content).drop (start + 1)).takeWhile
          (fun l => ! isBoundary stack l)) := by
  have hlt : start < (splitLines content).length := findIdxOpt_lt_length _ _ _ h
  have hdrop := drop_eq_getD_cons (splitLines content) start "" hlt
  unfold extractSection
  simp only [h]
  cases hb : findIdxOpt (isBoundary stack) ((splitLines content).drop (start + 1)) with
  | none =>
    have hall : ∀ x ∈ (splitLines content).drop (start + 1), isBoundary stack x = false :=
      (findIdxOpt_none_iff _ _).mp hb
    rw [takeWhile_of_all_neg _ _ hall, ← hdrop]
    congr 1
    have hlen : ((splitLines content).drop start).length = (splitLines content).length - start :=
      List.length_drop _ _
    rw [← hlen]
    exact List.take_length _
  | some j =>
    rw [show start + 1 + j - start = j + 1 from by omega, hdrop, List.take_succ_cons,
      take_findIdxOpt_some _ _ _ hb]

/-- C5 (witness: the Alpha/Beta document of the spec scenario). -/
theorem c5_witness :
    findIdxOpt (lineMatches "alpha") (splitLines c5Doc) = some 0 ∧
    extractSection c5Doc "alpha" =
      joinLines ((splitLines c5Doc).getD 0 "" ::
        ((splitLines c5Doc).drop (0 + 1)).takeWhile
          (fun l => ! isBoundary "alpha" l)) :=
  ⟨by decide, c5_section_boundary c5Doc "alpha" 0 (by decide)⟩

/-- C7: every Resource produced by listResources comes from a stored
file whose extension is .md or .json, and carries the uri
devcontext://category/filename, the display name category/filename, and
the mime type text/markdown for .md and application/json for .json. -/
theorem c7_resource_shape (cats : Store) (r : Resource) (hr : r ∈ listResources cats) :
    ∃ category files f, (category, CatEntry.dir files) ∈ cats ∧ f ∈ files ∧
      (strEndsWith f.name ".md" = true ∨ strEndsWith f.name ".json" = true) ∧
      r.uri = "devcontext://" ++ category ++ "/" ++ f.name ∧
      r.name = category ++ "/" ++ f.name ∧
      r.mimeType = (if strEndsWith f.name ".md" then "text/markdown" else "application/json") := by
  induction cats with
  | nil => simp [listResources] at hr
  | cons c rest ih =>
    obtain ⟨n, e⟩ := c
    cases e with
    | dirFail => simp [listResources] at hr
    | notDir =>
      simp only [listResources] at hr
      obtain ⟨cat, files, f, h1, h2, h3, h4, h5, h6⟩ := ih hr
      exact ⟨cat, files, f, List.mem_cons_of_mem _ h1, h2, h3, h4, h5, h6⟩
    | dir files =>
      simp only [listResources] at hr
      rcases List.mem_append.mp hr with hl | hrr
      · obtain ⟨f, hf, hsome⟩ := List.mem_filterMap.mp hl
        by_cases hrec : isRecognized f.name
        · rw [if_pos hrec] at hsome
          injection hsome with hs
          subst hs
          refine ⟨n, files, f, by simp, hf, ?_, rfl, rfl, rfl⟩
          have hor : (strEndsWith f.name ".md" || strEndsWith f.name ".json") = true := hrec
          exact (Bool.or_eq_true _ _).mp hor
        · rw [if_neg hrec] at hsome
          cases hsome
      · obtain ⟨cat, files', f, h1, h2, h3, h4, h5, h6⟩ := ih hrr
        exact ⟨cat, files', f, List.mem_cons_of_mem _ h1, h2, h3, h4, h5, h6⟩

/-- C7 (witness at a concrete store and resource). -/
theorem c7_witness :
    resourceOfFile "api" ⟨"server-patterns.md", "S"⟩ ∈ listResources c7Store ∧
    (∃ category files f, (category, CatEntry.dir files) ∈ c7Store ∧ f ∈ files ∧
      (strEndsWith f.name ".md" = true ∨ strEndsWith f.name ".json" = true) ∧
      (resourceOfFile "api" ⟨"server-patterns.md", "S"⟩).uri =
        "devcontext://" ++ category ++ "/" ++ f.name ∧
      (resourceOfFile "api" ⟨"server-patterns.md", "S"⟩).name =
        category ++ "/" ++ f.name ∧
      (resourceOfFile "api" ⟨"server-patterns.md", "S"⟩).mimeType =
        (if strEndsWith f.name ".md" then "text/markdown" else "application/json")) :=
  ⟨by decide,
   c7_resource_shape c7Store (resourceOfFile "api" ⟨"server-patterns.md", "S"⟩) (by decide)⟩
